import Mathlib

/-!
Shallow embedding of the bitstream crate of the h264-decoder repository
(src/crates/bitstream/src: bitreader.rs, nalu.rs, annexb.rs, avcc.rs).

Machine integers are modelled as Nat; a byte buffer is a list of byte
values (each < 256 on every input of interest).  Rust operations that can
panic under debug assertions (index out of bounds, shift amount at least
the bit width, arithmetic overflow, the unreachable branch) are modelled
by an explicit panic outcome.  The u8 field bit_offset stays in 0..=7 on
every state reachable through the public API, so subtractions such as
7 - bit_offset are exact there; theorems carry this invariant as a
hypothesis.  While loops are modelled with an explicit fuel counter whose
initial value is at least the number of iterations the Rust loop can
perform on the given input.
-/

/-- Outcome of a non-mutating Rust call: Ok value, anyhow error, or panic. -/
inductive RRes (α : Type) where
  | ok : α → RRes α
  | err : String → RRes α
  | panic : String → RRes α
deriving DecidableEq

/-- The BitReader of bitreader.rs: a bit-level cursor over a byte buffer. -/
structure BitReader where
  byte_buf : List Nat
  byte_index : Nat
  bit_offset : Nat
deriving DecidableEq

/-- Outcome of a mutating Rust method on a BitReader.  The err case carries
the state of the receiver after the failed call (the source returns before
any mutation, which the theorems below make explicit). -/
inductive MRes (α : Type) where
  | ok : α → BitReader → MRes α
  | err : String → BitReader → MRes α
  | panic : String → MRes α
deriving DecidableEq

namespace BitReader

/-- BitReader::from_bytes. -/
def from_bytes (data : List Nat) : BitReader :=
  { byte_buf := data, byte_index := 0, bit_offset := 7 }

/-- BitReader::position: byte_index * 8 + (7 - bit_offset). -/
def position (s : BitReader) : Nat :=
  s.byte_index * 8 + (7 - s.bit_offset)

/-- The inner for loop of BitReader::peek: reads up to `iters` single bits
of `cur_byte` (MSB-first from bit `bo` down), or-ing each into the
accumulator at position n - bits_read - 1, breaking past the byte boundary.
Returns the updated (byte_index, bit_offset, bits_read, read_out). -/
def peekBitsInner (n cur_byte : Nat) :
    Nat → Nat → Nat → Nat → Nat → RRes (Nat × Nat × Nat × Nat)
  | 0, bi, bo, m, acc => .ok (bi, bo, m, acc)
  | iters + 1, bi, bo, m, acc =>
    let bit := (cur_byte >>> bo) &&& 1
    if n - m - 1 < 32 then
      let acc' := acc ||| (bit <<< (n - m - 1))
      if bo = 0 then
        .ok (bi + 1, 7, m + 1, acc')
      else
        peekBitsInner n cur_byte iters bi (bo - 1) (m + 1) acc'
    else
      .panic "attempt to shift left with overflow"

/-- The while loop of BitReader::peek.  `fuel` bounds the number of
iterations (each iteration reads at least one bit, so `n` is enough fuel
for a call starting at bits_read = 0). -/
def peekAux (buf : List Nat) (n : Nat) :
    Nat → Nat → Nat → Nat → Nat → RRes Nat
  | 0, _, _, m, acc => if m < n then .panic "loop fuel exhausted" else .ok acc
  | fuel + 1, bi, bo, m, acc =>
    if m < n then
      if bo = 7 ∧ m + 8 ≤ n then
        if bi < buf.length then
          if n - m - 8 < 32 then
            peekAux buf n fuel (bi + 1) 7 (m + 8)
              (acc ||| ((buf.getD bi 0) <<< (n - m - 8)))
          else
            .panic "attempt to shift left with overflow"
        else
          .panic "index out of bounds"
      else
        if bi < buf.length then
          match peekBitsInner n (buf.getD bi 0) (min (n - m) (bo + 1)) bi bo m acc with
          | .ok (bi', bo', m', acc') => peekAux buf n fuel bi' bo' m' acc'
          | .err e => .err e
          | .panic msg => .panic msg
        else
          .panic "index out of bounds"
    else
      .ok acc

/-- BitReader::peek. -/
def peek (s : BitReader) (n : Nat) : RRes Nat :=
  let bits_remaining := (s.byte_buf.length - s.byte_index) * 8 + (7 - s.bit_offset)
  if bits_remaining < n then
    .err "Not enough space to read!"
  else
    peekAux s.byte_buf n n s.byte_index s.bit_offset 0 0

/-- BitReader::advance (private helper of read). -/
def advance (s : BitReader) (n : Nat) : MRes Unit :=
  let total_bits := s.byte_buf.length * 8
  let global_bit_index := s.byte_index * 8 + (7 - s.bit_offset)
  if global_bit_index + n > total_bits then
    .err "Not enough bits to advance!" s
  else
    .ok () { byte_buf := s.byte_buf,
             byte_index := (global_bit_index + n) / 8,
             bit_offset := 7 - (global_bit_index + n) % 8 }

/-- BitReader::read: peek then advance. -/
def read (s : BitReader) (n : Nat) : MRes Nat :=
  match peek s n with
  | .err e => .err e s
  | .panic msg => .panic msg
  | .ok val =>
    match advance s n with
    | .err e s' => .err e s'
    | .panic msg => .panic msg
    | .ok _ s' => .ok val s'

/-- BitReader::rewind. -/
def rewind (s : BitReader) (n : Nat) : MRes Unit :=
  let prior_bits := s.byte_index * 8 + (7 - s.bit_offset)
  if prior_bits < n then
    .err "Too many bits to rewind backwards" s
  else
    .ok () { byte_buf := s.byte_buf,
             byte_index := (prior_bits - n) / 8,
             bit_offset := 7 - (prior_bits - n) % 8 }

/-- The while loop of BitReader::read_ue, counting leading zero bits.
`lzb` is leading_zero_bits; the cap at 31 means at most 32 iterations, so
fuel 33 can never run out when starting from lzb = 0. -/
def readUeLoop : Nat → BitReader → Nat → MRes Nat
  | 0, _, _ => .panic "loop fuel exhausted"
  | fuel + 1, s, lzb =>
    match read s 1 with
    | .err e s' => .err e s'
    | .panic msg => .panic msg
    | .ok v s' =>
      if v = 0 then
        if lzb + 1 > 31 then
          .err "Too many leading zeros in Exp-Golomb" s'
        else
          readUeLoop fuel s' (lzb + 1)
      else
        if lzb = 0 then
          .ok 0 s'
        else
          match read s' lzb with
          | .err e s'' => .err e s''
          | .panic msg => .panic msg
          | .ok suffix s'' =>
            if 32 ≤ lzb then
              .panic "attempt to shift left with overflow"
            else if (1 <<< lzb) - 1 + suffix < 4294967296 then
              .ok ((1 <<< lzb) - 1 + suffix) s''
            else
              .panic "attempt to add with overflow"

/-- BitReader::read_ue. -/
def read_ue (s : BitReader) : MRes Nat :=
  readUeLoop 33 s 0

/-- Reads `k` single bits, all of which must be the zero bit, returning the
state after them (used to phrase the leading-zero count of read_ue). -/
def zeroConsume : BitReader → Nat → Option BitReader
  | s, 0 => some s
  | s, k + 1 =>
    match read s 1 with
    | .ok 0 s' => zeroConsume s' k
    | _ => none

/-- Well-formedness of a reader state: bit_offset in 0..=7, position inside
the buffer, byte values below 256 (as forced by the Rust types u8/usize on
every state the API can construct). -/
def WF (s : BitReader) : Prop :=
  s.bit_offset ≤ 7 ∧ position s ≤ s.byte_buf.length * 8 ∧
    ∀ i, s.byte_buf.getD i 0 < 256

end BitReader

/-- The NaluHeader struct of nalu.rs. -/
structure NaluHeader where
  forbidden_zero_bit : Nat
  nal_ref_idc : Nat
  nal_unit_type : Nat
deriving DecidableEq

/-- NaluHeader::new (nalu.rs). -/
def NaluHeader.new (byte : Nat) : RRes NaluHeader :=
  let forbidden_zero_bit := (byte >>> 7) &&& 1
  let nal_ref_idc := (byte >>> 5) &&& 3
  let nal_unit_type := byte &&& 31
  if forbidden_zero_bit = 1 then
    .err "Forbidden bit in NALU Header cannot be 1"
  else
    .ok { forbidden_zero_bit := forbidden_zero_bit,
          nal_ref_idc := nal_ref_idc,
          nal_unit_type := nal_unit_type }

/-- The subslice data[a..b] of a byte buffer. -/
def subslice (data : List Nat) (a b : Nat) : List Nat :=
  (data.drop a).take (b - a)

/-- A 3- or 4-byte Annex-B start code begins at index i. -/
def isStartAt (data : List Nat) (i : Nat) : Prop :=
  (i + 4 ≤ data.length ∧ subslice data i (i + 4) = [0, 0, 0, 1]) ∨
  (i + 3 ≤ data.length ∧ subslice data i (i + 3) = [0, 0, 1])

instance (data : List Nat) (i : Nat) : Decidable (isStartAt data i) := by
  unfold isStartAt; infer_instance

/-- The scan loop of split_annexb_nalus (annexb.rs).  nalu_start is the
index just past the most recent start code; nalus accumulates the pushed
views in order.  Fuel 0 behaves like loop exit (the initial fuel
data.length + 1 is more than the loop can iterate, since i strictly
increases and the loop stops once i + 3 exceeds the length). -/
def splitLoop (data : List Nat) :
    Nat → Nat → Option Nat → List (List Nat) → List (List Nat)
  | 0, _, nalu_start, nalus =>
    match nalu_start with
    | some start => if start < data.length then nalus ++ [data.drop start] else nalus
    | none => nalus
  | fuel + 1, i, nalu_start, nalus =>
    if i + 3 ≤ data.length then
      if i + 4 ≤ data.length ∧ subslice data i (i + 4) = [0, 0, 0, 1] then
        let nalus' :=
          match nalu_start with
          | some start => if start < i then nalus ++ [subslice data start i] else nalus
          | none => nalus
        splitLoop data fuel (i + 4) (some (i + 4)) nalus'
      else if subslice data i (i + 3) = [0, 0, 1] then
        let nalus' :=
          match nalu_start with
          | some start => if start < i then nalus ++ [subslice data start i] else nalus
          | none => nalus
        splitLoop data fuel (i + 3) (some (i + 3)) nalus'
      else
        splitLoop data fuel (i + 1) nalu_start nalus
    else
      match nalu_start with
      | some start => if start < data.length then nalus ++ [data.drop start] else nalus
      | none => nalus

/-- split_annexb_nalus (annexb.rs). -/
def split_annexb_nalus (data : List Nat) : List (List Nat) :=
  splitLoop data (data.length + 1) 0 none []

/-- The match computing amount_to_read in read_avcc_stream (avcc.rs).
Reads the length field at index i for the given nalu_length_size; the
1..=4 arms mirror the source byte order exactly (the 3- and 4-byte arms
assemble the bytes low-to-high, i.e. little-endian); any other size hits
the unreachable arm. -/
def amountAt (data : List Nat) (nalu_length_size i : Nat) : RRes Nat :=
  match nalu_length_size with
  | 1 =>
    if i < data.length then .ok (data.getD i 0)
    else .panic "index out of bounds"
  | 2 =>
    if i + 1 < data.length then
      .ok ((data.getD i 0 <<< 8) ||| data.getD (i + 1) 0)
    else .panic "index out of bounds"
  | 3 =>
    if i + 2 < data.length then
      .ok ((data.getD (i + 2) 0 <<< 16) ||| (data.getD (i + 1) 0 <<< 8) |||
        data.getD i 0)
    else .panic "index out of bounds"
  | 4 =>
    if i + 3 < data.length then
      .ok ((data.getD (i + 3) 0 <<< 24) ||| (data.getD (i + 2) 0 <<< 16) |||
        (data.getD (i + 1) 0 <<< 8) ||| data.getD i 0)
    else .panic "index out of bounds"
  | _ => .panic "internal error: entered unreachable code"

/-- The while loop of read_avcc_stream.  Fuel 0 behaves like loop exit;
the initial fuel data.length + 1 is more than the loop can iterate for any
size the loop body survives, since i strictly increases. -/
def readAvccLoop (data : List Nat) (nalu_length_size : Nat) :
    Nat → Nat → List (List Nat) → RRes (List (List Nat))
  | 0, i, nalus => if i < data.length then .panic "loop fuel exhausted" else .ok nalus
  | fuel + 1, i, nalus =>
    if i < data.length then
      match amountAt data nalu_length_size i with
      | .err e => .err e
      | .panic msg => .panic msg
      | .ok amount_to_read =>
        if i + nalu_length_size + amount_to_read > data.length then
          .err "NALU length exceeds available data"
        else
          readAvccLoop data nalu_length_size fuel
            (i + nalu_length_size + amount_to_read)
            (nalus ++ [(data.drop (i + nalu_length_size)).take amount_to_read])
    else
      .ok nalus

/-- read_avcc_stream (avcc.rs).  The guard in the source accepts exactly
the sizes in 0..=3 (the error message there is formatted with the
offending value appended). -/
def read_avcc_stream (data : List Nat) (nalu_length_size : Nat) :
    RRes (List (List Nat)) :=
  if ¬ nalu_length_size ≤ 3 then
    .err "Invalid NALU length size"
  else
    readAvccLoop data nalu_length_size (data.length + 1) 0 []

/-- The AVCHeader struct of avcc.rs. -/
structure AVCHeader where
  version : Nat
  avc_profile : Nat
  avc_compatability : Nat
  avc_level : Nat
  nalu_length_size_minus_one : Nat
  sps : List (List Nat)
  pps : List (List Nat)
deriving DecidableEq

/-- AVCHeader::parse_nalus (avcc.rs): reads `count` records of the form
(u16 big-endian size, size bytes) starting at `offset`; returns the views
in order together with the final offset. -/
def AVCHeader.parse_nalus (data : List Nat) :
    Nat → Nat → String → RRes (List (List Nat) × Nat)
  | 0, offset, _ => .ok ([], offset)
  | count + 1, offset, label =>
    if offset + 2 > data.length then
      .err ("Not enough data for " ++ label ++ " size field")
    else
      let size := (data.getD offset 0 <<< 8) ||| data.getD (offset + 1) 0
      if offset + 2 + size > data.length then
        .err ("Not enough data for " ++ label ++ " payload")
      else
        match AVCHeader.parse_nalus data count (offset + 2 + size) label with
        | .ok (rest, final) =>
          .ok (((data.drop (offset + 2)).take size) :: rest, final)
        | .err e => .err e
        | .panic msg => .panic msg

/-- AVCHeader::new (avcc.rs).  The pps_count byte is read at data[offset]
with no bounds check in the source; that read is the dependent if below,
whose else branch is the index-out-of-bounds panic. -/
def AVCHeader.new (data : List Nat) : RRes AVCHeader :=
  if data.length < 7 then .err "AVCC header is below minimum size"
  else
    let version := data.getD 0 0
    let avc_profile := data.getD 1 0
    let avc_compatability := data.getD 2 0
    let avc_level := data.getD 3 0
    let nalu_header_byte := data.getD 4 0
    let nalu_length_size_minus_one := nalu_header_byte &&& 3
    if version ≠ 1 then .err "Incorrect version in AVCC header"
    else if nalu_header_byte &&& 252 ≠ 252 then
      .err "Invalid reserved bits in AVCC NALU length size byte"
    else
      let sps_count := data.getD 5 0 &&& 31
      if data.length < 7 + sps_count then .err "AVCC header is below minimum size"
      else
        match AVCHeader.parse_nalus data sps_count 6 "SPS" with
        | .err e => .err e
        | .panic msg => .panic msg
        | .ok (sps, offset2) =>
          if offset2 < data.length then
            let pps_count := data.getD offset2 0 &&& 31
            if data.length < offset2 + 1 + pps_count then
              .err "AVCC header is below minimum size"
            else
              match AVCHeader.parse_nalus data pps_count (offset2 + 1) "PPS" with
              | .err e => .err e
              | .panic msg => .panic msg
              | .ok (pps, _) =>
                .ok { version := version, avc_profile := avc_profile,
                      avc_compatability := avc_compatability,
                      avc_level := avc_level,
                      nalu_length_size_minus_one := nalu_length_size_minus_one,
                      sps := sps, pps := pps }
          else
            .panic "index out of bounds"

namespace BitReader

/-- The inner peek loop consumes exactly `iters` bits when `iters` fits in
the current byte and in the remaining bit budget; the cursor moves forward
by `iters` bit positions and stays byte-aligned-or-inside. -/
theorem peekBitsInner_ok (n cur_byte : Nat) :
    ∀ (iters bi bo m acc : Nat), bo ≤ 7 → iters ≤ bo + 1 → m + iters ≤ n →
      n ≤ 32 →
      ∃ bi' bo' acc',
        peekBitsInner n cur_byte iters bi bo m acc = .ok (bi', bo', m + iters, acc') ∧
        bo' ≤ 7 ∧ bi' * 8 + (7 - bo') = bi * 8 + (7 - bo) + iters := by
  intro iters
  induction iters with
  | zero =>
    intro bi bo m acc hbo _ _ _
    exact ⟨bi, bo, acc, rfl, hbo, by omega⟩
  | succ it ih =>
    intro bi bo m acc hbo hit hmn hn32
    simp only [peekBitsInner]
    rw [if_pos (by omega : n - m - 1 < 32)]
    by_cases hb0 : bo = 0
    · have hit0 : it = 0 := by omega
      subst hit0 hb0
      rw [if_pos rfl]
      exact ⟨bi + 1, 7, _, rfl, by omega, by omega⟩
    · rw [if_neg hb0]
      obtain ⟨bi', bo', acc', heq, hbo', hpos⟩ :=
        ih bi (bo - 1) (m + 1) (acc ||| (((cur_byte >>> bo) &&& 1) <<< (n - m - 1)))
          (by omega) (by omega) (by omega) hn32
      have hm : m + 1 + it = m + (it + 1) := by omega
      rw [hm] at heq
      exact ⟨bi', bo', acc', heq, hbo', by omega⟩

/-- The peek loop succeeds whenever the requested bits fit in the buffer,
n is at most 32, and the fuel covers the bits still to be read. -/
theorem peekAux_ok (buf : List Nat) (n : Nat) :
    ∀ (fuel bi bo m acc : Nat), bo ≤ 7 → m ≤ n → n ≤ 32 → n - m ≤ fuel →
      bi * 8 + (7 - bo) + (n - m) ≤ buf.length * 8 →
      ∃ v, peekAux buf n fuel bi bo m acc = .ok v := by
  intro fuel
  induction fuel with
  | zero =>
    intro bi bo m acc _ hmn _ hf _
    simp only [peekAux]
    rw [if_neg (by omega : ¬ m < n)]
    exact ⟨acc, rfl⟩
  | succ fuel ih =>
    intro bi bo m acc hbo hmn hn32 hf hrem
    simp only [peekAux]
    by_cases hlt : m < n
    · rw [if_pos hlt]
      by_cases hfast : bo = 7 ∧ m + 8 ≤ n
      · obtain ⟨hbo7, hm8⟩ := hfast
        subst hbo7
        rw [if_pos ⟨rfl, hm8⟩]
        rw [if_pos (by omega : bi < buf.length)]
        rw [if_pos (by omega : n - m - 8 < 32)]
        exact ih (bi + 1) 7 (m + 8) _ (by omega) (by omega) hn32 (by omega)
          (by omega)
      · rw [if_neg hfast]
        rw [if_pos (by omega : bi < buf.length)]
        obtain ⟨bi', bo', acc', heq, hbo', hpos⟩ :=
          peekBitsInner_ok n (buf.getD bi 0) (min (n - m) (bo + 1)) bi bo m acc
            hbo (Nat.min_le_right _ _) (by omega) hn32
        rw [heq]
        exact ih bi' bo' (m + min (n - m) (bo + 1)) acc' hbo' (by omega) hn32
          (by omega) (by omega)
    · rw [if_neg hlt]
      exact ⟨acc, rfl⟩

/-- peek succeeds whenever n bits actually remain and n is at most 32. -/
theorem peek_ok (s : BitReader) (n : Nat) (hbo : s.bit_offset ≤ 7) (hn32 : n ≤ 32)
    (hrem : position s + n ≤ s.byte_buf.length * 8) :
    ∃ v, peek s n = .ok v := by
  simp only [position] at hrem
  simp only [peek]
  rw [if_neg (by omega :
    ¬ (s.byte_buf.length - s.byte_index) * 8 + (7 - s.bit_offset) < n)]
  exact peekAux_ok s.byte_buf n n s.byte_index s.bit_offset 0 0 hbo (by omega)
    hn32 (by omega) (by omega)

/-- read succeeds under the same conditions, landing at the advanced
cursor position. -/
theorem read_ok (s : BitReader) (n : Nat) (hbo : s.bit_offset ≤ 7) (hn32 : n ≤ 32)
    (hrem : position s + n ≤ s.byte_buf.length * 8) :
    ∃ v, read s n =
      .ok v ⟨s.byte_buf, (position s + n) / 8, 7 - (position s + n) % 8⟩ := by
  obtain ⟨v, hp⟩ := peek_ok s n hbo hn32 hrem
  refine ⟨v, ?_⟩
  unfold read
  rw [hp]
  simp only [advance]
  rw [if_neg (by simp only [position] at hrem; omega :
    ¬ s.byte_index * 8 + (7 - s.bit_offset) + n > s.byte_buf.length * 8)]
  rfl

/-- A shifted value stays below 2 ^ n when its width plus the shift fits
in n. -/
theorem shl_lt {x k j n : Nat} (hx : x < 2 ^ k) (hkj : k + j ≤ n) :
    x <<< j < 2 ^ n := by
  rw [Nat.shiftLeft_eq]
  have h1 : x * 2 ^ j < 2 ^ k * 2 ^ j :=
    mul_lt_mul_of_pos_right hx (Nat.two_pow_pos j)
  have h2 : (2 : Nat) ^ k * 2 ^ j = 2 ^ (k + j) := (pow_add 2 k j).symm
  have h3 : (2 : Nat) ^ (k + j) ≤ 2 ^ n := Nat.pow_le_pow_right (by norm_num) hkj
  omega

/-- The inner peek loop never grows bits_read past the budget and keeps the
accumulator below 2 ^ n. -/
theorem peekBitsInner_bound (n cur_byte : Nat) :
    ∀ (iters bi bo m acc bi' bo' m' acc' : Nat), m + iters ≤ n →
      peekBitsInner n cur_byte iters bi bo m acc = .ok (bi', bo', m', acc') →
      m' ≤ m + iters ∧ (acc < 2 ^ n → acc' < 2 ^ n) := by
  intro iters
  induction iters with
  | zero =>
    intro bi bo m acc bi' bo' m' acc' _ heq
    simp only [peekBitsInner, RRes.ok.injEq, Prod.mk.injEq] at heq
    obtain ⟨-, -, h3, h4⟩ := heq
    exact ⟨by omega, fun h => h4 ▸ h⟩
  | succ it ih =>
    intro bi bo m acc bi' bo' m' acc' hmn heq
    simp only [peekBitsInner] at heq
    by_cases hsh : n - m - 1 < 32
    case neg =>
      rw [if_neg hsh] at heq
      cases heq
    rw [if_pos hsh] at heq
    have hbit : (cur_byte >>> bo) &&& 1 < 2 ^ 1 := by
      have := Nat.and_le_right (n := cur_byte >>> bo) (m := 1)
      omega
    have hacc : acc < 2 ^ n →
        acc ||| (((cur_byte >>> bo) &&& 1) <<< (n - m - 1)) < 2 ^ n := by
      intro h
      exact Nat.or_lt_two_pow h (shl_lt hbit (by omega))
    by_cases hb0 : bo = 0
    · rw [if_pos hb0] at heq
      simp only [RRes.ok.injEq, Prod.mk.injEq] at heq
      obtain ⟨-, -, h3, h4⟩ := heq
      exact ⟨by omega, fun h => h4 ▸ hacc h⟩
    · rw [if_neg hb0] at heq
      have := ih bi (bo - 1) (m + 1)
        (acc ||| (((cur_byte >>> bo) &&& 1) <<< (n - m - 1)))
        bi' bo' m' acc' (by omega) heq
      exact ⟨by omega, fun h => this.2 (hacc h)⟩

/-- Any value the peek loop returns is below 2 ^ n, provided the buffer
holds byte values and the accumulator starts below 2 ^ n. -/
theorem peekAux_bound (buf : List Nat) (n : Nat)
    (hbytes : ∀ i, buf.getD i 0 < 256) :
    ∀ (fuel bi bo m acc v : Nat), m ≤ n → acc < 2 ^ n →
      peekAux buf n fuel bi bo m acc = .ok v → v < 2 ^ n := by
  intro fuel
  induction fuel with
  | zero =>
    intro bi bo m acc v hmn hacc heq
    simp only [peekAux] at heq
    split at heq
    · cases heq
    · injection heq with h
      exact h ▸ hacc
  | succ fuel ih =>
    intro bi bo m acc v hmn hacc heq
    simp only [peekAux] at heq
    by_cases hlt : m < n
    · rw [if_pos hlt] at heq
      by_cases hfast : bo = 7 ∧ m + 8 ≤ n
      · rw [if_pos hfast] at heq
        have hm8 := hfast.2
        have h8 : buf.getD bi 0 < 2 ^ 8 := by
          have := hbytes bi
          omega
        split at heq
        · split at heq
          · exact ih (bi + 1) 7 (m + 8)
              (acc ||| ((buf.getD bi 0) <<< (n - m - 8))) v (by omega)
              (Nat.or_lt_two_pow hacc (shl_lt h8 (by omega))) heq
          · cases heq
        · cases heq
      · rw [if_neg hfast] at heq
        split at heq
        · cases hinner : peekBitsInner n (buf.getD bi 0)
              (min (n - m) (bo + 1)) bi bo m acc with
          | ok r =>
            obtain ⟨bi', bo', m', acc'⟩ := r
            rw [hinner] at heq
            have hb := peekBitsInner_bound n (buf.getD bi 0)
              (min (n - m) (bo + 1)) bi bo m acc bi' bo' m' acc' (by omega) hinner
            have hm' := hb.1
            exact ih bi' bo' m' acc' v (by omega) (hb.2 hacc) heq
          | err e => rw [hinner] at heq; cases heq
          | panic msg => rw [hinner] at heq; cases heq
        · cases heq
    · rw [if_neg hlt] at heq
      injection heq with h
      exact h ▸ hacc

/-- A successful n-bit read yields a value below 2 ^ n. -/
theorem read_lt (s : BitReader) (n v : Nat) (s' : BitReader)
    (hbytes : ∀ i, s.byte_buf.getD i 0 < 256)
    (h : read s n = .ok v s') : v < 2 ^ n := by
  unfold read at h
  cases hp : peek s n <;> rw [hp] at h
  case ok w =>
    have hw : w = v := by
      by_cases hc : s.byte_index * 8 + (7 - s.bit_offset) + n > s.byte_buf.length * 8
      · simp only [advance, if_pos hc] at h
        cases h
      · simp only [advance, if_neg hc] at h
        injection h with h1 h2
    subst hw
    simp only [peek] at hp
    split at hp
    · cases hp
    · exact peekAux_bound s.byte_buf n hbytes n s.byte_index s.bit_offset 0 0 w
        (by omega) (Nat.two_pow_pos n) hp
  case err e => cases h
  case panic msg => cases h

/-- A successful read preserves well-formedness. -/
theorem read_WF (s : BitReader) (n v : Nat) (s' : BitReader) (hWF : WF s)
    (h : read s n = .ok v s') : WF s' := by
  unfold read at h
  cases hp : peek s n <;> rw [hp] at h
  case ok w =>
    by_cases hc : s.byte_index * 8 + (7 - s.bit_offset) + n > s.byte_buf.length * 8
    · simp only [advance, if_pos hc] at h
      cases h
    · simp only [advance, if_neg hc] at h
      injection h with h1 h2
      obtain ⟨hbo, hpos, hbytes⟩ := hWF
      rw [← h2]
      refine ⟨?_, ?_, hbytes⟩
      · dsimp only
        omega
      · dsimp only [position]
        omega
  case err e => cases h
  case panic msg => cases h

/-- Consuming zero bits preserves well-formedness. -/
theorem zeroConsume_WF :
    ∀ (k : Nat) (s t : BitReader), WF s → zeroConsume s k = some t → WF t := by
  intro k
  induction k with
  | zero =>
    intro s t h heq
    simp only [zeroConsume] at heq
    injection heq with h1
    exact h1 ▸ h
  | succ k ih =>
    intro s t h heq
    simp only [zeroConsume] at heq
    cases hr : read s 1 <;> rw [hr] at heq
    case ok v s' =>
      cases v with
      | zero => exact ih s' t (read_WF s 1 0 s' h hr) heq
      | succ v => cases heq
    case err e s' => cases heq
    case panic msg => cases heq

/-- Unrolling the read_ue loop over a zero run of length k followed by a
one bit: with the counter at lzb and total lzb + k at most 31, the loop
returns 0 for a total of 0 and otherwise 2 ^ total - 1 + suffix. -/
theorem readUeLoop_zeros :
    ∀ (k lzb fuel : Nat) (s t u : BitReader), lzb + k ≤ 31 → k + 1 ≤ fuel →
      zeroConsume s k = some t → read t 1 = .ok 1 u →
      (lzb + k = 0 → readUeLoop fuel s lzb = .ok 0 u) ∧
      (∀ v w, 1 ≤ lzb + k → v < 2 ^ (lzb + k) → read u (lzb + k) = .ok v w →
        readUeLoop fuel s lzb = .ok (2 ^ (lzb + k) - 1 + v) w) := by
  intro k
  induction k with
  | zero =>
    intro lzb fuel s t u hcap hfuel hz hr1
    simp only [zeroConsume] at hz
    injection hz with hts
    subst hts
    obtain ⟨fuel, rfl⟩ : ∃ f, fuel = f + 1 := ⟨fuel - 1, by omega⟩
    constructor
    · intro h0
      have hlzb : lzb = 0 := by omega
      subst hlzb
      simp only [readUeLoop, hr1]
      norm_num
    · intro v w h1 hv hru
      simp only [Nat.add_zero] at h1 hv hru ⊢
      simp only [readUeLoop, hr1]
      rw [if_neg (by omega : ¬ (1 : Nat) = 0)]
      rw [if_neg (by omega : ¬ lzb = 0)]
      rw [hru]
      dsimp only
      rw [if_neg (by omega : ¬ 32 ≤ lzb)]
      rw [Nat.one_shiftLeft]
      have h31 : (2 : Nat) ^ lzb ≤ 2 ^ 31 := Nat.pow_le_pow_right (by norm_num) (by omega)
      have h31e : (2 : Nat) ^ 31 = 2147483648 := by norm_num
      rw [if_pos (by omega : 2 ^ lzb - 1 + v < 4294967296)]
  | succ k ih =>
    intro lzb fuel s t u hcap hfuel hz hr1
    simp only [zeroConsume] at hz
    cases hr : read s 1 <;> rw [hr] at hz
    case ok v₀ s₁ =>
      cases v₀ with
      | zero =>
        obtain ⟨fuel, rfl⟩ : ∃ f, fuel = f + 1 := ⟨fuel - 1, by omega⟩
        have he : lzb + 1 + k = lzb + (k + 1) := by omega
        have hrec := ih (lzb + 1) fuel s₁ t u (by omega) (by omega) hz hr1
        rw [he] at hrec
        constructor
        · intro h0
          exact absurd h0 (by omega)
        · intro v w h1 hv hru
          simp only [readUeLoop, hr]
          rw [if_neg (by omega : ¬ lzb + 1 > 31)]
          exact hrec.2 v w h1 hv hru
      | succ v₀ => cases hz
    case err e s' => cases hz
    case panic msg => cases hz

/-- Unrolling the read_ue loop over a zero run that brings the counter to
32: the loop fails with the dedicated overflow error, leaving the cursor
after the 32nd zero bit. -/
theorem readUeLoop_overflow :
    ∀ (k lzb fuel : Nat) (s t : BitReader), lzb + k = 32 → 1 ≤ k → k ≤ fuel →
      zeroConsume s k = some t →
      readUeLoop fuel s lzb = .err "Too many leading zeros in Exp-Golomb" t := by
  intro k
  induction k with
  | zero =>
    intro lzb fuel s t h1 h2
    exact absurd h2 (by omega)
  | succ k ih =>
    intro lzb fuel s t hsum hk1 hfuel hz
    simp only [zeroConsume] at hz
    cases hr : read s 1 <;> rw [hr] at hz
    case ok v₀ s₁ =>
      cases v₀ with
      | zero =>
        obtain ⟨fuel, rfl⟩ : ∃ f, fuel = f + 1 := ⟨fuel - 1, by omega⟩
        simp only [readUeLoop, hr]
        by_cases hk0 : k = 0
        · subst hk0
          simp only [zeroConsume] at hz
          injection hz with h
          have hgt : lzb + 1 > 31 := by omega
          simp [hgt, h]
        · rw [if_neg (by omega : ¬ lzb + 1 > 31)]
          exact ih (lzb + 1) fuel s₁ t (by omega) (by omega) (by omega) hz
      | succ v₀ => cases hz
    case err e s' => cases hz
    case panic msg => cases hz

end BitReader

/-- Scanning past a position that holds no start code just moves the index
forward. -/
theorem splitLoop_skip (data : List Nat) (fuel i : Nat) (ns : Option Nat)
    (acc : List (List Nat)) (h : ¬ isStartAt data i) :
    splitLoop data (fuel + 1) i ns acc = splitLoop data fuel (i + 1) ns acc := by
  simp only [splitLoop]
  by_cases h3 : i + 3 ≤ data.length
  · rw [if_pos h3]
    rw [if_neg (fun hc => h (Or.inl hc))]
    rw [if_neg (fun hc => h (Or.inr ⟨h3, hc⟩))]
  · rw [if_neg h3]
    cases fuel with
    | zero => simp only [splitLoop]
    | succ f =>
      simp only [splitLoop]
      rw [if_neg (by omega : ¬ i + 1 + 3 ≤ data.length)]

/-- A prefix free of start codes is scanned over without pushing any view:
the loop starting at 0 agrees with the loop starting at f. -/
theorem splitLoop_skip_prefix (data : List Nat) :
    ∀ (f fuel : Nat) (ns : Option Nat) (acc : List (List Nat)),
      (∀ i, i < f → ¬ isStartAt data i) →
      splitLoop data (fuel + f) 0 ns acc = splitLoop data fuel f ns acc := by
  intro f
  induction f with
  | zero => intro fuel ns acc _; rfl
  | succ f ih =>
    intro fuel ns acc hno
    have h1 : fuel + (f + 1) = (fuel + 1) + f := by omega
    rw [h1, ih (fuel + 1) ns acc (fun i hi => hno i (by omega))]
    exact splitLoop_skip data fuel f ns acc (hno f (by omega))

/-- Once the cursor is past the last start code (which ended at e), the
final view runs from e to the end of the buffer. -/
theorem splitLoop_tail (data : List Nat) :
    ∀ (fuel i e : Nat) (acc : List (List Nat)),
      (∀ m, i ≤ m → ¬ isStartAt data m) → e < data.length →
      splitLoop data fuel i (some e) acc = acc ++ [data.drop e] := by
  intro fuel
  induction fuel with
  | zero =>
    intro i e acc hno he
    simp only [splitLoop]
    rw [if_pos he]
  | succ f ih =>
    intro i e acc hno he
    rw [splitLoop_skip data f i (some e) acc (hno i le_rfl)]
    exact ih (i + 1) e acc (fun m hm => hno m (by omega)) he

/-- Claim C7: the Annex-B test vector splits into exactly the three views
[67 68 69], [65 66 67], [68 69 6A]; more generally, bytes preceding the
first start code are discarded (a start-code-free prefix of length f is
scanned over and the loop continues at f with nothing pushed), and after
the last start code, ending at index e, the final view runs from e to the
end of the buffer. -/
theorem split_annexb_spec :
    split_annexb_nalus
        [0, 0, 0, 1, 103, 104, 105, 0, 0, 1, 101, 102, 103,
         0, 0, 0, 1, 104, 105, 106] =
      [[103, 104, 105], [101, 102, 103], [104, 105, 106]] ∧
    (∀ (data : List Nat) (f : Nat), f ≤ data.length + 1 →
      (∀ i, i < f → ¬ isStartAt data i) →
      split_annexb_nalus data = splitLoop data (data.length + 1 - f) f none []) ∧
    (∀ (data : List Nat) (fuel i e : Nat) (acc : List (List Nat)),
      (∀ m, i ≤ m → ¬ isStartAt data m) → e < data.length →
      splitLoop data fuel i (some e) acc = acc ++ [data.drop e]) := by
  refine ⟨by decide, ?_, splitLoop_tail⟩
  intro data f hf hno
  unfold split_annexb_nalus
  conv_lhs => rw [show data.length + 1 = (data.length + 1 - f) + f from by omega]
  exact splitLoop_skip_prefix data f (data.length + 1 - f) none [] hno

/-- Witness for split_annexb_spec: a junk byte before the first start code
is skipped, and a trailing payload after the last start code becomes the
final view. -/
theorem split_annexb_spec_witness :
    split_annexb_nalus [255, 0, 0, 1, 170] =
      splitLoop [255, 0, 0, 1, 170] 5 1 none [] ∧
    splitLoop [0, 0, 1, 170, 171] 6 3 (some 3) [] = [[170, 171]] := by
  constructor
  · exact split_annexb_spec.2.1 [255, 0, 0, 1, 170] 1 (by decide) (by decide)
  · have h := split_annexb_spec.2.2 [0, 0, 1, 170, 171] 6 3 3 []
      (fun m hm hstart => by
        rcases hstart with ⟨h4, -⟩ | ⟨h3, -⟩
        · rw [show ([0, 0, 1, 170, 171] : List Nat).length = 5 from rfl] at h4
          omega
        · rw [show ([0, 0, 1, 170, 171] : List Nat).length = 5 from rfl] at h3
          omega)
      (by decide)
    exact h

/-- Claim C5: read_ue decodes an unsigned Exp-Golomb codeword.  If the
cursor sees k zero bits (k at most 31) and then a one bit, read_ue returns
0 when k = 0, and otherwise behaves as reading k suffix bits and returning
2 ^ k - 1 + suffix (propagating the suffix read's final state); if 32 zero
bits are seen, it fails with the dedicated overflow error.  In particular
the bit pattern 0001011 followed by padding (byte 0x16) decodes to 10. -/
theorem read_ue_exp_golomb :
    (∀ (s t u : BitReader) (k : Nat), BitReader.WF s → k ≤ 31 →
      BitReader.zeroConsume s k = some t → BitReader.read t 1 = .ok 1 u →
      (k = 0 → BitReader.read_ue s = .ok 0 u) ∧
      (∀ v w, 1 ≤ k → BitReader.read u k = .ok v w →
        BitReader.read_ue s = .ok (2 ^ k - 1 + v) w)) ∧
    (∀ (s t : BitReader), BitReader.zeroConsume s 32 = some t →
      BitReader.read_ue s = .err "Too many leading zeros in Exp-Golomb" t) ∧
    BitReader.read_ue (BitReader.from_bytes [22]) = .ok 10 ⟨[22], 0, 0⟩ := by
  refine ⟨?_, ?_, by decide⟩
  · intro s t u k hWF hk hz hr1
    have h := BitReader.readUeLoop_zeros k 0 33 s t u (by omega) (by omega) hz hr1
    simp only [Nat.zero_add] at h
    refine ⟨h.1, ?_⟩
    intro v w h1 hru
    have hWFt := BitReader.zeroConsume_WF k s t hWF hz
    have hWFu := BitReader.read_WF t 1 1 u hWFt hr1
    have hv : v < 2 ^ k := BitReader.read_lt u k v w hWFu.2.2 hru
    exact h.2 v w h1 hv hru
  · intro s t hz
    exact BitReader.readUeLoop_overflow 32 0 33 s t (by omega) (by omega)
      (by omega) hz

/-- Witness for read_ue_exp_golomb: byte 0x16 = 0001 0110, so three zero
bits, a one bit and the 3-bit suffix 011 give 2 ^ 3 - 1 + 3 = 10. -/
theorem read_ue_exp_golomb_witness :
    BitReader.read_ue (BitReader.from_bytes [22]) =
      .ok (2 ^ 3 - 1 + 3) ⟨[22], 0, 0⟩ :=
  (read_ue_exp_golomb.1 (BitReader.from_bytes [22]) ⟨[22], 0, 4⟩ ⟨[22], 0, 3⟩ 3
      ⟨by decide, by decide, fun i => by
        match i with
        | 0 => decide
        | i + 1 => simp [BitReader.from_bytes, List.getD]⟩
      (by decide) (by decide) (by decide)).2 3 ⟨[22], 0, 0⟩ (by decide) (by decide)

/-- Claim C6: round-trip.  For every buffer and every n within bounds
(n at most the bits remaining and n at most 32), read n succeeds, rewind n
then restores the position held before the read, and a subsequent read n
returns the same value and state as the first. -/
theorem read_rewind_roundtrip (s : BitReader) (n : Nat)
    (hbo : s.bit_offset ≤ 7) (hn32 : n ≤ 32)
    (hrem : BitReader.position s + n ≤ s.byte_buf.length * 8) :
    ∃ v s₁ s₂, BitReader.read s n = .ok v s₁ ∧
      BitReader.rewind s₁ n = .ok () s₂ ∧
      BitReader.position s₂ = BitReader.position s ∧
      BitReader.read s₂ n = .ok v s₁ := by
  obtain ⟨v, hr⟩ := BitReader.read_ok s n hbo hn32 hrem
  refine ⟨v, _, s, hr, ?_, rfl, hr⟩
  simp only [BitReader.rewind]
  rw [show (BitReader.position s + n) / 8 * 8 +
      (7 - (7 - (BitReader.position s + n) % 8)) = BitReader.position s + n
    from by omega]
  rw [if_neg (by omega : ¬ BitReader.position s + n < n)]
  rw [show BitReader.position s + n - n = BitReader.position s from by omega]
  obtain ⟨buf, bi, bo⟩ := s
  simp only [BitReader.position] at *
  congr 1
  simp only [BitReader.mk.injEq, true_and]
  exact ⟨by omega, by omega⟩

/-- Witness for read_rewind_roundtrip: a concrete 4-bit read on the buffer
0xAB 0xCD followed by a 4-bit rewind lands back at the start state. -/
theorem read_rewind_roundtrip_witness :
    BitReader.read (BitReader.from_bytes [171, 205]) 4 =
      .ok 10 ⟨[171, 205], 0, 3⟩ ∧
    BitReader.rewind ⟨[171, 205], 0, 3⟩ 4 =
      .ok () (BitReader.from_bytes [171, 205]) := by
  obtain ⟨v, s₁, s₂, h1, h2, h3, h4⟩ :=
    read_rewind_roundtrip (BitReader.from_bytes [171, 205]) 4 (by decide)
      (by decide) (by decide)
  exact ⟨by decide, by decide⟩

/-- Claim C1: the claim states that read_avcc_stream accepts every
length_size in 1..=4 and fails with an InvalidParameter-style error exactly
outside that range.  The source guard instead accepts 0..=3: size 4 is
refused with the invalid-parameter error even on an empty buffer, while
size 0 passes the guard and, on any nonempty buffer, reaches the
unreachable match arm and panics (on an empty buffer it returns Ok). -/
theorem avcc_length_size_guard_bug :
    read_avcc_stream [] 4 = .err "Invalid NALU length size" ∧
    read_avcc_stream [7] 0 = .panic "internal error: entered unreachable code" ∧
    read_avcc_stream [] 0 = .ok ([] : List (List Nat)) := by
  decide

/-- Claim C2: the claim states that length fields are decoded big-endian,
so that for length_size = 3 bytes b0 b1 b2 mean (b0 <<16) or (b1 << 8) or b2.
The source assembles them in the opposite order: on 00 00 01 followed by
one payload byte (big-endian length 1) the code computes length 65536 and
fails, while the byte-reversed field 01 00 00 is the one that parses as a
single one-byte NAL unit. -/
theorem avcc_length_field_endianness_bug :
    read_avcc_stream [0, 0, 1, 170] 3 = .err "NALU length exceeds available data" ∧
    read_avcc_stream [1, 0, 0, 170] 3 = .ok [[170]] := by
  decide

/-- Claim C3: the claim states that AVCHeader::new bounds-checks every
read, in particular the pps_count byte after the SPS records, and never
panics.  When the last SPS payload ends exactly at the end of the buffer,
the source reads data[offset] with offset = data.len() and panics: the
9-byte record below (version 1, valid reserved bits, one SPS of declared
size 1 occupying the final byte) trips the unchecked read.  A record with
one extra byte for pps_count parses fine, as the second conjunct shows. -/
theorem avcc_header_pps_count_unchecked :
    AVCHeader.new [1, 66, 0, 30, 255, 225, 0, 1, 170] = .panic "index out of bounds" ∧
    AVCHeader.new [1, 66, 0, 30, 253, 225, 0, 2, 170, 187, 225, 0, 1, 204] =
      .ok ⟨1, 66, 0, 30, 1, [[170, 187]], [[204]]⟩ := by
  decide

/-- Claim C4: the claim states that a length field that would itself read
past the end of the buffer yields a Truncated-style typed error.  The
source checks nothing before indexing data[i + 1] (respectively
data[i + 2]), so a truncated 2- or 3-byte length field panics with an
index-out-of-bounds instead of returning an error. -/
theorem avcc_short_length_field_panics :
    read_avcc_stream [5] 2 = .panic "index out of bounds" ∧
    read_avcc_stream [0, 5] 3 = .panic "index out of bounds" := by
  decide

/-- Claim C8: NaluHeader::new fails exactly when bit 7 of the byte is set;
on success forbidden_zero_bit = 0, nal_ref_idc = bits 6..5 and
nal_unit_type = bits 4..0; byte 0x65 decodes to (0, 3, 5) and byte 0x80
fails. -/
theorem nalu_header_spec :
    (∀ byte, byte < 256 →
      (128 ≤ byte →
        NaluHeader.new byte = .err "Forbidden bit in NALU Header cannot be 1") ∧
      (byte < 128 →
        NaluHeader.new byte = .ok ⟨0, byte / 32 % 4, byte % 32⟩)) ∧
    NaluHeader.new 101 = .ok ⟨0, 3, 5⟩ ∧
    NaluHeader.new 128 = .err "Forbidden bit in NALU Header cannot be 1" := by
  refine ⟨?_, by decide, by decide⟩
  intro byte hb
  constructor
  · intro h7
    have hs : byte >>> 7 = 1 := by
      rw [Nat.shiftRight_eq_div_pow]
      omega
    simp [NaluHeader.new, hs]
  · intro h7
    have hs : byte >>> 7 = 0 := by
      rw [Nat.shiftRight_eq_div_pow]
      omega
    have hs5 : byte >>> 5 = byte / 32 := by
      rw [Nat.shiftRight_eq_div_pow]
    have h3 : byte / 32 &&& 3 = byte / 32 % 4 := Nat.and_pow_two_sub_one_eq_mod (byte / 32) 2
    have h31 : byte &&& 31 = byte % 32 := Nat.and_pow_two_sub_one_eq_mod byte 5
    simp [NaluHeader.new, hs, hs5, h3, h31]

/-- Witness for nalu_header_spec: instantiating the quantified part at the
concrete bytes 0x65 and 0x80 discharges its hypotheses. -/
theorem nalu_header_spec_witness :
    NaluHeader.new 101 = .ok ⟨0, 101 / 32 % 4, 101 % 32⟩ ∧
    NaluHeader.new 128 = .err "Forbidden bit in NALU Header cannot be 1" :=
  ⟨(nalu_header_spec.1 101 (by decide)).2 (by decide),
   (nalu_header_spec.1 128 (by decide)).1 (by decide)⟩

/-- Claim C9: peek and read place no upper bound on n.  With 5 bytes
(40 bits) available, peek 33 succeeds (no out-of-bounds error) even though
33 exceeds the documented cap of 32, and peek 40 (like read 40) reaches a
left shift by 32 on the 32-bit accumulator, which panics instead of
failing cleanly. -/
theorem peek_read_no_upper_bound :
    BitReader.peek (BitReader.from_bytes [1, 2, 3, 4, 5]) 33 = .ok 33818120 ∧
    BitReader.peek (BitReader.from_bytes [1, 2, 3, 4, 5]) 40 =
      .panic "attempt to shift left with overflow" ∧
    BitReader.read (BitReader.from_bytes [1, 2, 3, 4, 5]) 40 =
      .panic "attempt to shift left with overflow" := by
  decide

/-- Claim C10: whenever read fails with an error (in particular because
fewer than n bits remain), the receiver is left exactly as it was —
byte_index, bit_offset and hence position are unchanged — and a failing
rewind likewise leaves the state unchanged. -/
theorem cursor_unchanged_on_error :
    (∀ (s : BitReader) (n : Nat) (e : String) (s' : BitReader),
      BitReader.read s n = .err e s' → s' = s) ∧
    (∀ (s : BitReader) (n : Nat) (e : String) (s' : BitReader),
      BitReader.rewind s n = .err e s' → s' = s) := by
  constructor
  · intro s n e s' h
    unfold BitReader.read at h
    cases hp : BitReader.peek s n <;> rw [hp] at h
    · by_cases hc : s.byte_index * 8 + (7 - s.bit_offset) + n > s.byte_buf.length * 8
      · simp only [BitReader.advance, if_pos hc] at h
        injection h with h1 h2
        exact h2.symm
      · simp only [BitReader.advance, if_neg hc] at h
        cases h
    · injection h with h1 h2
      exact h2.symm
    · cases h
  · intro s n e s' h
    simp only [BitReader.rewind] at h
    split at h
    · injection h with h1 h2
      exact h2.symm
    · cases h

/-- Witness for cursor_unchanged_on_error: reading 9 bits from a 1-byte
buffer and rewinding 1 bit at position 0 both fail, and the theorem
applied at those concrete calls yields the (unchanged) states. -/
theorem cursor_unchanged_on_error_witness :
    BitReader.from_bytes [0] = BitReader.from_bytes [0] ∧
    BitReader.from_bytes [0] = BitReader.from_bytes [0] :=
  ⟨cursor_unchanged_on_error.1 (BitReader.from_bytes [0]) 9
      "Not enough space to read!" (BitReader.from_bytes [0]) (by decide),
   cursor_unchanged_on_error.2 (BitReader.from_bytes [0]) 1
      "Too many bits to rewind backwards" (BitReader.from_bytes [0]) (by decide)⟩
